import Mathlib

/-!
Verification development for the MeshAI peer-mesh coordination subsystem.

The relay side (`src/server/routes.ts`, Socket.IO handlers inside
`io.on("connection")`) and the client side (`src/client/src/lib/mesh-client.ts`,
class `MeshClient`) are shallowly embedded below.  JavaScript `Map` objects are
modelled as association lists (`mget`/`mset`/`mdel`), JavaScript `Set` objects
as duplicate-free lists in insertion order (`sadd`/`sdel`), matching the
iteration-order semantics of the originals.
-/

namespace MeshAI

/-! ### JS `Map` and `Set` primitives -/

/-- `Map.get(k)`: first binding of the key, if any. -/
def mget {α : Type} : List (String × α) → String → Option α
  | [], _ => none
  | e :: m, k => if e.1 = k then some e.2 else mget m k

/-- `Map.has(k)`. -/
def mhas {α : Type} (m : List (String × α)) (k : String) : Bool :=
  (mget m k).isSome

/-- `Map.set(k, v)`: update in place if present, else append at the end. -/
def mset {α : Type} : List (String × α) → String → α → List (String × α)
  | [], k, v => [(k, v)]
  | e :: m, k, v => if e.1 = k then (k, v) :: m else e :: mset m k v

/-- `Map.delete(k)`. -/
def mdel {α : Type} (m : List (String × α)) (k : String) : List (String × α) :=
  m.filter (fun e => e.1 ≠ k)

/-- The keys of a map, in iteration order. -/
def keys {α : Type} (m : List (String × α)) : List String :=
  m.map (·.1)

/-- `Set.add(x)`: append if absent (JS sets keep insertion order). -/
def sadd (s : List String) (x : String) : List String :=
  if x ∈ s then s else s ++ [x]

/-- `Set.delete(x)`. -/
def sdel (s : List String) (x : String) : List String :=
  s.filter (fun y => y ≠ x)

theorem mget_mset_self {α : Type} (m : List (String × α)) (k : String) (v : α) :
    mget (mset m k v) k = some v := by
  induction m with
  | nil => simp [mset, mget]
  | cons e m ih =>
    by_cases h : e.1 = k
    · simp [mset, h, mget]
    · simp [mset, h, mget, ih]

theorem mget_mset_ne {α : Type} (m : List (String × α)) {k k' : String} (v : α)
    (h : k' ≠ k) : mget (mset m k v) k' = mget m k' := by
  induction m with
  | nil => simp [mset, mget, Ne.symm h]
  | cons e m ih =>
    by_cases he : e.1 = k
    · have h1 : mset (e :: m) k v = (k, v) :: m := by simp [mset, he]
      have h2 : ¬ e.1 = k' := by rw [he]; exact Ne.symm h
      rw [h1]
      simp [mget, Ne.symm h, h2]
    · have h1 : mset (e :: m) k v = e :: mset m k v := by simp [mset, he]
      rw [h1]
      by_cases he' : e.1 = k'
      · simp [mget, he']
      · simp [mget, he', ih]

theorem mget_mdel_self {α : Type} (m : List (String × α)) (k : String) :
    mget (mdel m k) k = none := by
  induction m with
  | nil => rfl
  | cons e m ih =>
    by_cases h : e.1 = k
    · have h1 : mdel (e :: m) k = mdel m k := by simp [mdel, List.filter_cons, h]
      rw [h1]; exact ih
    · have h1 : mdel (e :: m) k = e :: mdel m k := by simp [mdel, List.filter_cons, h]
      rw [h1]
      simp [mget, h, ih]

theorem mget_mdel_ne {α : Type} (m : List (String × α)) {k k' : String}
    (h : k' ≠ k) : mget (mdel m k) k' = mget m k' := by
  induction m with
  | nil => rfl
  | cons e m ih =>
    by_cases he : e.1 = k
    · have h1 : mdel (e :: m) k = mdel m k := by simp [mdel, List.filter_cons, he]
      have h2 : ¬ e.1 = k' := by rw [he]; exact Ne.symm h
      rw [h1, ih]
      simp [mget, h2]
    · have h1 : mdel (e :: m) k = e :: mdel m k := by simp [mdel, List.filter_cons, he]
      rw [h1]
      by_cases he' : e.1 = k'
      · simp [mget, he']
      · simp [mget, he', ih]

theorem mem_keys_of_mget {α : Type} {m : List (String × α)} {k : String} {v : α}
    (h : mget m k = some v) : k ∈ keys m := by
  induction m with
  | nil => simp [mget] at h
  | cons e m ih =>
    by_cases he : e.1 = k
    · simp [keys, he.symm]
    · simp [mget, he] at h
      exact List.mem_cons_of_mem _ (ih h)

theorem mhas_of_mem_keys {α : Type} {m : List (String × α)} {k : String}
    (h : k ∈ keys m) : mhas m k = true := by
  induction m with
  | nil => simp [keys] at h
  | cons e m ih =>
    by_cases he : e.1 = k
    · simp [mhas, mget, he]
    · rcases List.mem_cons.mp (show k ∈ e.1 :: keys m from h) with h2 | h2
      · exact absurd h2.symm he
      · have := ih h2
        simpa [mhas, mget, he] using this

theorem mhas_iff_mem_keys {α : Type} {m : List (String × α)} {k : String} :
    mhas m k = true ↔ k ∈ keys m := by
  constructor
  · intro h
    rcases Option.isSome_iff_exists.mp h with ⟨v, hv⟩
    exact mem_keys_of_mget hv
  · exact mhas_of_mem_keys

theorem mem_sadd {s : List String} {x y : String} :
    y ∈ sadd s x ↔ y ∈ s ∨ y = x := by
  unfold sadd
  by_cases h : x ∈ s
  · simp [h]
    intro hy
    subst hy
    exact h
  · simp [h]

theorem mem_sdel {s : List String} {x y : String} :
    y ∈ sdel s x ↔ y ∈ s ∧ y ≠ x := by
  simp [sdel]

theorem sdel_ne_nil_of_mem {s : List String} {x y : String}
    (hy : y ∈ s) (hne : y ≠ x) : sdel s x ≠ [] := by
  intro h
  have : y ∈ sdel s x := mem_sdel.mpr ⟨hy, hne⟩
  simp [h] at this

/-- `new Set(l)`: deduplicate, keeping first occurrences in order. -/
def sdedup (l : List String) : List String :=
  l.foldl sadd []

theorem mem_foldl_sadd (l : List String) (acc : List String) (x : String) :
    x ∈ l.foldl sadd acc ↔ x ∈ acc ∨ x ∈ l := by
  induction l generalizing acc with
  | nil => simp
  | cons a l ih =>
    rw [List.foldl_cons, ih, mem_sadd]
    simp only [List.mem_cons]
    tauto

theorem mem_sdedup {l : List String} {x : String} : x ∈ sdedup l ↔ x ∈ l := by
  unfold sdedup
  rw [mem_foldl_sadd]
  simp

theorem nodup_sadd {s : List String} (h : s.Nodup) (x : String) : (sadd s x).Nodup := by
  unfold sadd
  by_cases hx : x ∈ s
  · simpa [hx]
  · simp [hx, List.nodup_append, h]

theorem nodup_foldl_sadd (l : List String) (acc : List String) (h : acc.Nodup) :
    (l.foldl sadd acc).Nodup := by
  induction l generalizing acc with
  | nil => simpa
  | cons a l ih => exact ih _ (nodup_sadd h a)

theorem nodup_sdedup (l : List String) : (sdedup l).Nodup :=
  nodup_foldl_sadd l [] (by simp)

theorem keys_filter {α : Type} (m : List (String × α)) (p : String → Bool) :
    keys (m.filter (fun e => p e.1)) = (keys m).filter p := by
  induction m with
  | nil => rfl
  | cons e m ih =>
    by_cases h : p e.1 = true
    · simp [keys, List.filter_cons, h] at ih ⊢
      exact ih
    · simp only [Bool.not_eq_true] at h
      simp [keys, List.filter_cons, h] at ih ⊢
      exact ih

theorem mhas_filter_key {α : Type} (m : List (String × α)) (p : String → Bool) (q : String) :
    mhas (m.filter (fun e => p e.1)) q = true ↔ mhas m q = true ∧ p q = true := by
  rw [mhas_iff_mem_keys, keys_filter, List.mem_filter, ← mhas_iff_mem_keys]

/-! ### Client side: `MeshClient` (src/client/src/lib/mesh-client.ts)

`RTCPeerConnection` is abstracted to the one property the claims need (which
side initiated it); `RTCDataChannel` to its `readyState` string. -/

/-- Wire shape of a job (`MeshJob` in mesh-client.ts, plus the relay's `from`
    tag). `fromPeer` models the wire field `from` (a Lean keyword); a field that
    is absent on the wire is `none`. `params` is routed opaquely. -/
structure MeshJob where
  id : String
  prompt : String
  params : String
  fromPeer : Option String := none
  messageId : Option String := none
deriving DecidableEq, Repr

/-- Wire shape of a chunk (`MeshChunk` in mesh-client.ts). `fromPeer` models
    the wire field `from`. -/
structure MeshChunk where
  id : String
  fromPeer : Option String := none
  text : String
  done : Bool
  messageId : Option String := none
deriving DecidableEq, Repr

/-- An `RTCDataChannel`, abstracted to its `readyState`
    ("connecting" | "open" | "closing" | "closed"). -/
structure DataChannel where
  readyState : String
deriving DecidableEq, Repr

/-- An `RTCPeerConnection` entry in `this.peers`, abstracted to whether this
    side initiated it (the `initiator` argument of `createPeerConnection`). -/
structure PeerConn where
  initiator : Bool
deriving DecidableEq, Repr

/-- The two maps of `MeshClient`: `this.peers` and `this.dataChannels`. -/
structure ClientState where
  peers : List (String × PeerConn)
  dataChannels : List (String × DataChannel)
deriving DecidableEq, Repr

/-- State effect of `createPeerConnection(peerId, initiator)`:
    `this.peers.set(peerId, pc)`; when initiator, additionally
    `pc.createDataChannel('mesh')` then `setupDataChannel`
    (`this.dataChannels.set(peerId, dc)`), the fresh channel starting in
    readyState "connecting". -/
def createPeerConnection (st : ClientState) (peerId : String) (initiator : Bool) : ClientState :=
  let st1 : ClientState := { st with peers := mset st.peers peerId ⟨initiator⟩ }
  if initiator then
    { st1 with dataChannels := mset st1.dataChannels peerId ⟨"connecting"⟩ }
  else st1

/-- The "Add new peers" loop of `updatePeerConnections`: for each target id in
    order, `if (!this.peers.has(peerId)) createPeerConnection(peerId, true)`. -/
def addNewPeers (l : List String) (st : ClientState) : ClientState :=
  l.foldl (fun s peerId =>
    if mhas s.peers peerId then s else createPeerConnection s peerId true) st

/-- `updatePeerConnections(peerIds)` from mesh-client.ts:
    `targetPeers = new Set(peerIds.filter(id => id !== myId))`; every existing
    connection whose peer id is not in `targetPeers` is closed and deleted from
    both `this.peers` and `this.dataChannels`; then an initiator connection is
    created for every target id without one.  `myId` stands for
    `this.socket?.id`. -/
def updatePeerConnections (st : ClientState) (myId : String) (peerIds : List String) :
    ClientState :=
  let targetPeers := sdedup (peerIds.filter (fun i => decide (i ≠ myId)))
  let removed := (keys st.peers).filter (fun p => decide (p ∉ targetPeers))
  let st1 : ClientState :=
    { peers := st.peers.filter (fun e => decide (e.1 ∈ targetPeers)),
      dataChannels := st.dataChannels.filter (fun e => decide (e.1 ∉ removed)) }
  addNewPeers targetPeers st1

theorem mhas_addNewPeers (l : List String) (st : ClientState) (q : String) :
    mhas (addNewPeers l st).peers q = true ↔ mhas st.peers q = true ∨ q ∈ l := by
  induction l generalizing st with
  | nil => simp [addNewPeers]
  | cons a l ih =>
    have hstep : addNewPeers (a :: l) st
        = addNewPeers l (if mhas st.peers a then st else createPeerConnection st a true) := rfl
    rw [hstep]
    by_cases ha : mhas st.peers a
    · rw [show (if mhas st.peers a then st else createPeerConnection st a true) = st by
        simp [ha]]
      rw [ih]
      constructor
      · rintro (h | h)
        · exact Or.inl h
        · exact Or.inr (List.mem_cons_of_mem _ h)
      · rintro (h | h)
        · exact Or.inl h
        · rcases List.mem_cons.mp h with h2 | h2
          · subst h2; exact Or.inl ha
          · exact Or.inr h2
    · rw [show (if mhas st.peers a then st else createPeerConnection st a true)
          = createPeerConnection st a true by simp [ha]]
      rw [ih]
      have hpeers : (createPeerConnection st a true).peers = mset st.peers a ⟨true⟩ := rfl
      rw [hpeers]
      constructor
      · rintro (h | h)
        · by_cases hqa : q = a
          · exact Or.inr (by simp [hqa])
          · rw [show mhas (mset st.peers a ⟨true⟩) q = mhas st.peers q by
              simp [mhas, mget_mset_ne _ _ hqa]] at h
            exact Or.inl h
        · exact Or.inr (List.mem_cons_of_mem _ h)
      · rintro (h | h)
        · by_cases hqa : q = a
          · subst hqa
            exact Or.inl (by simp [mhas, mget_mset_self])
          · exact Or.inl (by
              rw [show mhas (mset st.peers a ⟨true⟩) q = mhas st.peers q by
                simp [mhas, mget_mset_ne _ _ hqa]]
              exact h)
        · rcases List.mem_cons.mp h with h2 | h2
          · subst h2
            exact Or.inl (by simp [mhas, mget_mset_self])
          · exact Or.inr h2

theorem addNewPeers_not_mem (l : List String) (st : ClientState) (q : String)
    (hq : q ∉ l) :
    mget (addNewPeers l st).peers q = mget st.peers q ∧
    mget (addNewPeers l st).dataChannels q = mget st.dataChannels q := by
  induction l generalizing st with
  | nil => exact ⟨rfl, rfl⟩
  | cons a l ih =>
    have hqa : q ≠ a := fun h => hq (h ▸ List.mem_cons_self a l)
    have hql : q ∉ l := fun h => hq (List.mem_cons_of_mem _ h)
    have hstep : addNewPeers (a :: l) st
        = addNewPeers l (if mhas st.peers a then st else createPeerConnection st a true) := rfl
    rw [hstep]
    by_cases ha : mhas st.peers a
    · rw [show (if mhas st.peers a then st else createPeerConnection st a true) = st by
        simp [ha]]
      exact ih st hql
    · rw [show (if mhas st.peers a then st else createPeerConnection st a true)
          = createPeerConnection st a true by simp [ha]]
      rcases ih (createPeerConnection st a true) hql with ⟨h1, h2⟩
      refine ⟨h1.trans ?_, h2.trans ?_⟩
      · exact mget_mset_ne _ _ hqa
      · exact mget_mset_ne _ _ hqa

theorem addNewPeers_fresh (l : List String) (st : ClientState) (q : String)
    (hq : q ∈ l) (hnd : l.Nodup) (hfresh : ¬ mhas st.peers q) :
    mget (addNewPeers l st).peers q = some ⟨true⟩ ∧
    mget (addNewPeers l st).dataChannels q = some ⟨"connecting"⟩ := by
  induction l generalizing st with
  | nil => simp at hq
  | cons a l ih =>
    have hstep : addNewPeers (a :: l) st
        = addNewPeers l (if mhas st.peers a then st else createPeerConnection st a true) := rfl
    rw [hstep]
    rcases List.mem_cons.mp hq with h2 | h2
    · subst h2
      rw [show (if mhas st.peers q then st else createPeerConnection st q true)
          = createPeerConnection st q true by simp [hfresh]]
      have hql : q ∉ l := (List.nodup_cons.mp hnd).1
      rcases addNewPeers_not_mem l _ q hql with ⟨h1, h2⟩
      refine ⟨h1.trans ?_, h2.trans ?_⟩
      · exact mget_mset_self _ _ _
      · exact mget_mset_self _ _ _
    · have hqa : q ≠ a := fun h => (List.nodup_cons.mp hnd).1 (h ▸ h2)
      have hnd' : l.Nodup := (List.nodup_cons.mp hnd).2
      by_cases ha : mhas st.peers a
      · rw [show (if mhas st.peers a then st else createPeerConnection st a true) = st by
          simp [ha]]
        exact ih st h2 hnd' hfresh
      · rw [show (if mhas st.peers a then st else createPeerConnection st a true)
            = createPeerConnection st a true by simp [ha]]
        refine ih _ h2 hnd' ?_
        simp only [mhas] at hfresh ⊢
        rw [show (createPeerConnection st a true).peers = mset st.peers a ⟨true⟩ from rfl]
        rw [mget_mset_ne _ _ hqa]
        exact hfresh

/-- C1: after `updatePeerConnections(R)` completes, the set of remote peer ids
    with a live PeerConnection equals `R \ {self}` regardless of the previous
    connection set; every prior connection outside `R \ {self}` is removed from
    both the connection map and the data-channel map; and every id of
    `R \ {self}` that had no connection gets a fresh one with this side as
    initiator (together with the eagerly created outgoing data channel). -/
theorem reconcile_converges_to_roster (st : ClientState) (myId : String) (R : List String) :
    (∀ q, mhas (updatePeerConnections st myId R).peers q = true ↔ (q ∈ R ∧ q ≠ myId)) ∧
    (∀ q, ¬ (q ∈ R ∧ q ≠ myId) →
      mhas (updatePeerConnections st myId R).peers q = false ∧
      (mhas st.peers q = true →
        mhas (updatePeerConnections st myId R).dataChannels q = false)) ∧
    (∀ q, (q ∈ R ∧ q ≠ myId) → mhas st.peers q = false →
      mget (updatePeerConnections st myId R).peers q = some ⟨true⟩ ∧
      mget (updatePeerConnections st myId R).dataChannels q = some ⟨"connecting"⟩) := by
  obtain ⟨T, hT⟩ : ∃ T, T = sdedup (R.filter (fun i => decide (i ≠ myId))) := ⟨_, rfl⟩
  obtain ⟨rem, hrem⟩ : ∃ r, r = (keys st.peers).filter (fun p => decide (p ∉ T)) := ⟨_, rfl⟩
  obtain ⟨st1, hst1⟩ : ∃ s : ClientState,
      s = { peers := st.peers.filter (fun e => decide (e.1 ∈ T)),
            dataChannels := st.dataChannels.filter (fun e => decide (e.1 ∉ rem)) } :=
    ⟨_, rfl⟩
  have hU : updatePeerConnections st myId R = addNewPeers T st1 := by
    rw [hst1, hrem, hT]
    rfl
  have hqT : ∀ q : String, q ∈ T ↔ q ∈ R ∧ q ≠ myId := by
    intro q
    rw [hT, mem_sdedup, List.mem_filter]
    constructor
    · rintro ⟨h1, h2⟩
      exact ⟨h1, of_decide_eq_true h2⟩
    · rintro ⟨h1, h2⟩
      exact ⟨h1, decide_eq_true h2⟩
  have hst1peers : ∀ q, mhas st1.peers q = true ↔ mhas st.peers q = true ∧ q ∈ T := by
    intro q
    rw [hst1]
    rw [mhas_filter_key st.peers (fun s => decide (s ∈ T)) q]
    simp
  refine ⟨?_, ?_, ?_⟩
  · intro q
    rw [hU, mhas_addNewPeers, hst1peers]
    constructor
    · rintro (⟨h1, h2⟩ | h2)
      · exact (hqT q).mp h2
      · exact (hqT q).mp h2
    · intro h
      exact Or.inr ((hqT q).mpr h)
  · intro q hq
    have hqnT : q ∉ T := fun h => hq ((hqT q).mp h)
    constructor
    · have hnot : ¬ (mhas (addNewPeers T st1).peers q = true) := by
        rw [mhas_addNewPeers, hst1peers]
        rintro (h1 | h1)
        · exact hqnT h1.2
        · exact hqnT h1
      rw [hU]
      simpa using hnot
    · intro hpq
      have hqrem : q ∈ rem := by
        rw [hrem]
        exact List.mem_filter.mpr ⟨mhas_iff_mem_keys.mp hpq, decide_eq_true hqnT⟩
      have h2 : mget (addNewPeers T st1).dataChannels q = mget st1.dataChannels q :=
        (addNewPeers_not_mem T st1 q hqnT).2
      have h3 : ¬ (mhas st1.dataChannels q = true) := by
        intro hc
        rw [hst1] at hc
        have := (mhas_filter_key st.dataChannels (fun s => decide (s ∉ rem)) q).mp hc
        exact (of_decide_eq_true this.2) hqrem
      have h4 : mhas (addNewPeers T st1).dataChannels q = mhas st1.dataChannels q := by
        simp only [mhas, h2]
      rw [hU, h4]
      simpa using h3
  · intro q hq hfresh
    have hmemT : q ∈ T := (hqT q).mpr hq
    have h1 : ¬ (mhas st1.peers q = true) := by
      rw [hst1peers]
      rintro ⟨hc, _⟩
      rw [hfresh] at hc
      exact absurd hc (by simp)
    have hnd : T.Nodup := by
      rw [hT]
      exact nodup_sdedup _
    rw [hU]
    exact addNewPeers_fresh T st1 q hmemT hnd h1

/-- Concrete instance of `reconcile_converges_to_roster`: starting from one
    stale connection "x", reconciling against roster ["me", "a"] as "me" adds
    an initiator connection to "a" and drops "x" from both maps. -/
theorem reconcile_converges_witness :
    mhas (updatePeerConnections ⟨[("x", ⟨false⟩)], [("x", ⟨"open"⟩)]⟩ "me"
        ["me", "a"]).peers "a" = true ∧
    mhas (updatePeerConnections ⟨[("x", ⟨false⟩)], [("x", ⟨"open"⟩)]⟩ "me"
        ["me", "a"]).dataChannels "x" = false ∧
    mget (updatePeerConnections ⟨[("x", ⟨false⟩)], [("x", ⟨"open"⟩)]⟩ "me"
        ["me", "a"]).peers "a" = some ⟨true⟩ := by
  have h := reconcile_converges_to_roster ⟨[("x", ⟨false⟩)], [("x", ⟨"open"⟩)]⟩ "me" ["me", "a"]
  refine ⟨(h.1 "a").mpr (by decide), (h.2.1 "x" (by decide)).2 (by decide), ?_⟩
  exact (h.2.2 "a" (by decide) (by decide)).1

/-! ### Client side: job/chunk protocol and direct-channel dispatch -/

/-- A Socket.IO emission made by the client protocol layer.  `toPeer` models
    the wire field `to` (a Lean keyword). -/
inductive SocketEmit where
  | job (j : MeshJob)
  | chunk (toPeer : String) (c : MeshChunk)
deriving DecidableEq, Repr

/-- A framed direct-channel message `{type, payload}` (JSON-serialized as one
    message in the code). -/
inductive Frame where
  | job (payload : MeshJob)
  | chunk (payload : MeshChunk)
deriving DecidableEq, Repr

/-- `broadcastJob(job)`: emit the job on the socket, and write the frame
    `{type: 'job', payload: job}` to every entry of `this.dataChannels` whose
    `readyState === 'open'`.  Returns the relay emission and the
    (peerId, frame) channel writes in iteration order. -/
def broadcastJob (st : ClientState) (job : MeshJob) : SocketEmit × List (String × Frame) :=
  (SocketEmit.job job,
    (st.dataChannels.filter (fun e => e.2.readyState = "open")).map
      (fun e => (e.1, Frame.job job)))

/-- `sendChunk(peerId, chunk)`: emit `{...chunk, to: peerId}` on the socket,
    and write the frame `{type: 'chunk', payload: chunk}` to `peerId`'s data
    channel iff that channel exists and its `readyState === 'open'`. -/
def sendChunk (st : ClientState) (peerId : String) (chunk : MeshChunk) :
    SocketEmit × List (String × Frame) :=
  (SocketEmit.chunk peerId chunk,
    match mget st.dataChannels peerId with
    | some dc => if dc.readyState = "open" then [(peerId, Frame.chunk chunk)] else []
    | none => [])

/-- C8: `broadcastJob` always emits to the relay and writes the job frame to
    exactly the open data channels; `sendChunk` always emits the addressed
    chunk to the relay and writes the chunk frame to the target's channel iff
    it exists and is open — an absent or non-open channel receives nothing,
    with no buffering and no error (the write list is simply empty). -/
theorem redundant_send_paths (st : ClientState) (job : MeshJob) (peerId : String)
    (chunk : MeshChunk) :
    (broadcastJob st job).1 = SocketEmit.job job ∧
    (∀ q f, (q, f) ∈ (broadcastJob st job).2 ↔
      f = Frame.job job ∧ ∃ e ∈ st.dataChannels, e.1 = q ∧ e.2.readyState = "open") ∧
    (sendChunk st peerId chunk).1 = SocketEmit.chunk peerId chunk ∧
    (∀ q f, (q, f) ∈ (sendChunk st peerId chunk).2 ↔
      q = peerId ∧ f = Frame.chunk chunk ∧
      ∃ dc, mget st.dataChannels peerId = some dc ∧ dc.readyState = "open") := by
  refine ⟨rfl, ?_, rfl, ?_⟩
  · intro q f
    show (q, f) ∈ (st.dataChannels.filter (fun e => decide (e.2.readyState = "open"))).map
        (fun e => (e.1, Frame.job job)) ↔ _
    rw [List.mem_map]
    constructor
    · rintro ⟨e, he, heq⟩
      obtain ⟨he1, he2⟩ := List.mem_filter.mp he
      have hq : e.1 = q := congrArg Prod.fst heq
      have hf : Frame.job job = f := congrArg Prod.snd heq
      exact ⟨hf.symm, e, he1, hq, of_decide_eq_true he2⟩
    · rintro ⟨hf, e, he, hq, hopen⟩
      refine ⟨e, List.mem_filter.mpr ⟨he, decide_eq_true hopen⟩, ?_⟩
      rw [hq, hf]
  · intro q f
    cases hdc : mget st.dataChannels peerId with
    | none =>
      have hnil : (sendChunk st peerId chunk).2 = [] := by
        simp [sendChunk, hdc]
      rw [hnil]
      simp
    | some dc =>
      by_cases hop : dc.readyState = "open"
      · have hone : (sendChunk st peerId chunk).2 = [(peerId, Frame.chunk chunk)] := by
          simp [sendChunk, hdc, hop]
        rw [hone]
        constructor
        · intro h
          rcases List.mem_singleton.mp h with heq
          have hq : q = peerId := congrArg Prod.fst heq
          have hf : f = Frame.chunk chunk := congrArg Prod.snd heq
          exact ⟨hq, hf, dc, rfl, hop⟩
        · rintro ⟨hq, hf, _, _, _⟩
          rw [hq, hf]
          exact List.mem_singleton.mpr rfl
      · have hnil : (sendChunk st peerId chunk).2 = [] := by
          simp [sendChunk, hdc, hop]
        rw [hnil]
        constructor
        · intro h
          simp at h
        · rintro ⟨_, _, dc', hdc', hop'⟩
          have hdd : dc = dc' := Option.some.inj hdc'
          rw [← hdd] at hop'
          exact absurd hop' hop

/-- Concrete instance of `redundant_send_paths`: with one open channel "p1"
    and one still-connecting channel "p2", the job frame is written to "p1". -/
theorem redundant_send_witness :
    ("p1", Frame.job ⟨"j", "hi", "x", none, none⟩)
      ∈ (broadcastJob ⟨[], [("p1", ⟨"open"⟩), ("p2", ⟨"connecting"⟩)]⟩
          ⟨"j", "hi", "x", none, none⟩).2 := by
  have h := redundant_send_paths ⟨[], [("p1", ⟨"open"⟩), ("p2", ⟨"connecting"⟩)]⟩
    ⟨"j", "hi", "x", none, none⟩ "p1" ⟨"c", none, "t", false, none⟩
  exact (h.2.1 "p1" (Frame.job ⟨"j", "hi", "x", none, none⟩)).mpr
    ⟨rfl, ("p1", ⟨"open"⟩), by decide, rfl, rfl⟩

/-- Outcome of the direct-channel `onmessage` handler. -/
inductive DcDispatch (P : Type) where
  | parseErrorLogged : DcDispatch P
  | onJobCall (payload : P) : DcDispatch P
  | onChunkCall (payload : P) : DcDispatch P
  | ignored : DcDispatch P
deriving DecidableEq, Repr

/-- `dc.onmessage` from `setupDataChannel`: `JSON.parse(event.data)` runs in a
    try/catch — `none` models a parse exception, whose catch logs via
    `console.error` and discards the frame.  A parsed frame is inspected only
    through `message.type` (`none` when absent) and `message.payload`, which is
    passed through untouched, so it is kept abstract. -/
def dcOnMessage {P : Type} (raw : Option (Option String × P)) : DcDispatch P :=
  match raw with
  | none => DcDispatch.parseErrorLogged
  | some (t, payload) =>
    if t = some "job" then DcDispatch.onJobCall payload
    else if t = some "chunk" then DcDispatch.onChunkCall payload
    else DcDispatch.ignored

/-- C9: a raw direct-channel frame that fails to parse is logged and discarded
    (outcome `parseErrorLogged`, which is a distinct constructor from the two
    handler calls, so neither `onJob` nor `onChunk` runs and no error reaches
    the channel); a frame parsed with `type = 'job'` invokes exactly
    `onJob(payload)`, one with `type = 'chunk'` exactly `onChunk(payload)`. -/
theorem dc_dispatch_by_type (P : Type) :
    (dcOnMessage (none : Option (Option String × P)) = DcDispatch.parseErrorLogged) ∧
    (∀ p : P, dcOnMessage (some (some "job", p)) = DcDispatch.onJobCall p) ∧
    (∀ p : P, dcOnMessage (some (some "chunk", p)) = DcDispatch.onChunkCall p) ∧
    (∀ (t : Option String) (p : P), t ≠ some "job" → t ≠ some "chunk" →
      dcOnMessage (some (t, p)) = DcDispatch.ignored) := by
  refine ⟨rfl, fun p => ?_, fun p => ?_, fun t p h1 h2 => ?_⟩
  · simp [dcOnMessage]
  · simp [dcOnMessage]
  · simp [dcOnMessage, h1, h2]

/-- Concrete instance of `dc_dispatch_by_type`: an unknown frame type is
    ignored and a parse failure only logs. -/
theorem dc_dispatch_witness :
    dcOnMessage (some (some "ping", true)) = DcDispatch.ignored ∧
    dcOnMessage (none : Option (Option String × Bool)) = DcDispatch.parseErrorLogged := by
  have h := dc_dispatch_by_type Bool
  exact ⟨h.2.2.2 (some "ping") true (by decide) (by decide), h.1⟩

/-! ### Relay side: Socket.IO signaling relay (src/server/routes.ts)

The relay state is the `rooms` map (`Map<string, Set<string>>`) together with
each connected socket's `currentRoom` variable, keyed by `peerId = socket.id`
(`socks`).  `socks` also stands in for socket.io's internal room bookkeeping:
a connected socket `s` is in the socket.io rooms `{s.id, currentRoom(s)}`,
which is what `io.to(...)` routes by. -/

structure Relay where
  rooms : List (String × List String)
  socks : List (String × String)
deriving DecidableEq, Repr

/-- Connected socket ids, in connection order. -/
def sockIds (st : Relay) : List String :=
  keys st.socks

/-- The delivery set of `io.to(name).emit(...)`: every connected socket in
    socket.io room `name`, i.e. whose id equals `name` or whose `currentRoom`
    is `name`. -/
def ioTo (st : Relay) (name : String) : List String :=
  (sockIds st).filter (fun s => decide (s = name ∨ mget st.socks s = some name))

/-- A server→client roster push (`io.to(room).emit("roster", peers)`). -/
inductive Emit where
  | roster (recipient : String) (peers : List String)
deriving DecidableEq, Repr

/-- The leave half of the `joinRoom` closure: the `if (currentRoom) {...}`
    block drops the peer from its current room's set and deletes the room if
    the set became empty.  `currentRoom` is always a non-empty room name for a
    live socket ("global" from connection onwards), so the truthiness guard is
    always taken. -/
def leaveRoom (rooms : List (String × List String)) (peerId cur : String) :
    List (String × List String) :=
  match mget rooms cur with
  | some roomPeers =>
    let remaining := sdel roomPeers peerId
    if remaining.length = 0 then mdel rooms cur else mset rooms cur remaining
  | none => rooms

/-- `if (!rooms.has(room)) rooms.set(room, new Set())`. -/
def ensureRoom (rooms : List (String × List String)) (room : String) :
    List (String × List String) :=
  if mhas rooms room then rooms else mset rooms room []

/-- The `joinRoom(room)` closure acting on the `rooms` map: leave the current
    room, ensure the target exists, `rooms.get(room).add(peerId)`, and return
    the updated map together with `peers = Array.from(rooms.get(room) || [])`,
    the roster payload broadcast afterwards. -/
def joinRoomStep (rooms : List (String × List String)) (peerId cur room : String) :
    List (String × List String) × List String :=
  let rooms2 := ensureRoom (leaveRoom rooms peerId cur) room
  let rooms3 := mset rooms2 room (sadd ((mget rooms2 room).getD []) peerId)
  (rooms3, (mget rooms3 room).getD [])

/-- Tail shared by the connection handler and the `join` handler: run
    `joinRoom`, record the new `currentRoom`, and emit the roster via
    `io.to(room)` — the emit runs after `socket.join(room)`, so the joining
    socket itself is among the recipients. -/
def applyJoinRoom (st : Relay) (p cur room : String) : Relay × List Emit :=
  let res := joinRoomStep st.rooms p cur room
  let st' : Relay := { rooms := res.1, socks := mset st.socks p room }
  (st', (ioTo st' room).map (fun m => Emit.roster m res.2))

/-- Relay-side events.  A `join` message carries its raw `room` field: `none`
    models a missing field, and `""` is also falsy, so both fall back to
    "global" through `room || "global"`. -/
inductive Ev where
  | connect (p : String)
  | join (p : String) (room : Option String)
  | disconnect (p : String)
deriving DecidableEq, Repr

/-- One relay event.  `connect p` runs the connection handler, which
    initializes `currentRoom = "global"` and immediately calls
    `joinRoom("global")`; socket ids are unique, so the guard against a
    duplicate id is never taken on real traces.  `join`/`disconnect` only fire
    for connected sockets.  On `disconnect` the socket has already left its
    socket.io rooms, so `socks` is trimmed before the roster emit. -/
def step (st : Relay) : Ev → Relay × List Emit
  | Ev.connect p =>
    if mhas st.socks p then (st, [])
    else applyJoinRoom st p "global" "global"
  | Ev.join p room =>
    match mget st.socks p with
    | none => (st, [])
    | some cur =>
      applyJoinRoom st p cur
        (match room with
         | none => "global"
         | some r => if r = "" then "global" else r)
  | Ev.disconnect p =>
    match mget st.socks p with
    | none => (st, [])
    | some cur =>
      let socks := mdel st.socks p
      match mget st.rooms cur with
      | none => ({ rooms := st.rooms, socks := socks }, [])
      | some roomPeers =>
        let remaining := sdel roomPeers p
        if remaining.length = 0 then
          ({ rooms := mdel st.rooms cur, socks := socks }, [])
        else
          let st' : Relay := { rooms := mset st.rooms cur remaining, socks := socks }
          (st', (ioTo st' cur).map (fun m => Emit.roster m remaining))

/-- The relay starts with no rooms and no sockets. -/
def initRelay : Relay := ⟨[], []⟩

/-- The relay state reached by a sequence of events. -/
def run (evs : List Ev) : Relay :=
  evs.foldl (fun st e => (step st e).1) initRelay

/-- `socket.on("job")`: the handler destructures only `{id, prompt, params}`
    from the submitted job — its `messageId` is never read — and emits
    `{id, from: socket.id, prompt, params}` via `socket.to(currentRoom)`,
    which delivers to every socket in the sender's signaling room except the
    sender itself.  Returns the (recipient, delivered payload) list. -/
def relayJobHandler (st : Relay) (sender : String) (j : MeshJob) :
    List (String × MeshJob) :=
  match mget st.socks sender with
  | none => []
  | some currentRoom =>
    let fwd : MeshJob :=
      { id := j.id, prompt := j.prompt, params := j.params, fromPeer := some sender }
    ((ioTo st currentRoom).filter (fun s => decide (s ≠ sender))).map (fun m => (m, fwd))

/-- `socket.on("chunk")`: the handler destructures `{id, to, text, done}` —
    again no `messageId` — and emits `{id, from: socket.id, text, done: !!done}`
    via `io.to(to)`, every socket in signaling room `to`, the sender not
    excluded.  `!!` on the boolean `done` field is the identity. -/
def relayChunkHandler (st : Relay) (sender toPeer : String) (c : MeshChunk) :
    List (String × MeshChunk) :=
  let fwd : MeshChunk :=
    { id := c.id, fromPeer := some sender, text := c.text, done := c.done }
  (ioTo st toPeer).map (fun m => (m, fwd))

/-- Client `socket.on('roster')` handler: `onRoster` is invoked with
    `peers.filter(id => id !== this.socket?.id)` — the own id is removed
    locally, not by the relay. -/
def rosterCallbackArg (selfId : String) (peers : List String) : List String :=
  peers.filter (fun i => decide (i ≠ selfId))

/-- Relay state invariant: socket ids are unique; every room in the map has a
    non-empty member set listing only connected sockets whose `currentRoom` is
    that room; and every connected socket is a member of its `currentRoom`'s
    set. -/
def Inv (st : Relay) : Prop :=
  (sockIds st).Nodup ∧
  (∀ r ps, mget st.rooms r = some ps → ps ≠ [] ∧ ∀ p, p ∈ ps → mget st.socks p = some r) ∧
  (∀ p r, mget st.socks p = some r → ∃ ps, mget st.rooms r = some ps ∧ p ∈ ps)

/-! ### Map bookkeeping lemmas -/

theorem keys_mset_of_mhas {α : Type} (m : List (String × α)) (k : String) (v : α)
    (h : mhas m k = true) : keys (mset m k v) = keys m := by
  induction m with
  | nil => simp [mhas, mget] at h
  | cons e m ih =>
    by_cases he : e.1 = k
    · rw [show mset (e :: m) k v = (k, v) :: m by simp [mset, he]]
      simp [keys, he]
    · rw [show mset (e :: m) k v = e :: mset m k v by simp [mset, he]]
      have h' : mhas m k = true := by simpa [mhas, mget, he] using h
      show e.1 :: keys (mset m k v) = e.1 :: keys m
      rw [ih h']

theorem keys_mset_of_not_mhas {α : Type} (m : List (String × α)) (k : String) (v : α)
    (h : mhas m k = false) : keys (mset m k v) = keys m ++ [k] := by
  induction m with
  | nil => simp [mset, keys]
  | cons e m ih =>
    have he : ¬ e.1 = k := by
      intro hc
      simp [mhas, mget, hc] at h
    rw [show mset (e :: m) k v = e :: mset m k v by simp [mset, he]]
    have h' : mhas m k = false := by simpa [mhas, mget, he] using h
    show e.1 :: keys (mset m k v) = keys (e :: m) ++ [k]
    rw [ih h']
    rfl

theorem nodup_keys_mset {α : Type} (m : List (String × α)) (k : String) (v : α)
    (h : (keys m).Nodup) : (keys (mset m k v)).Nodup := by
  cases hk : mhas m k
  · rw [keys_mset_of_not_mhas _ _ _ hk]
    have hknot : k ∉ keys m := by
      intro hc
      rw [mhas_of_mem_keys hc] at hk
      cases hk
    simp [List.nodup_append, h, hknot]
  · rw [keys_mset_of_mhas _ _ _ hk]
    exact h

theorem nodup_keys_mdel {α : Type} (m : List (String × α)) (k : String)
    (h : (keys m).Nodup) : (keys (mdel m k)).Nodup := by
  have hk : keys (mdel m k) = (keys m).filter (fun s => decide (s ≠ k)) :=
    keys_filter m (fun s => decide (s ≠ k))
  rw [hk]
  exact h.filter _

/-! ### Step equations -/

theorem step_connect_dup (st : Relay) (p : String) (h : mhas st.socks p = true) :
    step st (Ev.connect p) = (st, []) := by
  simp [step, h]

theorem step_connect_fresh (st : Relay) (p : String) (h : mhas st.socks p = false) :
    step st (Ev.connect p) = applyJoinRoom st p "global" "global" := by
  simp [step, h]

theorem step_join_none (st : Relay) (p : String) (room : Option String)
    (h : mget st.socks p = none) : step st (Ev.join p room) = (st, []) := by
  simp [step, h]

theorem step_join_some (st : Relay) (p : String) (room : Option String) (cur : String)
    (h : mget st.socks p = some cur) :
    step st (Ev.join p room) = applyJoinRoom st p cur
      (match room with
       | none => "global"
       | some r => if r = "" then "global" else r) := by
  simp [step, h]

theorem step_disconnect_none (st : Relay) (p : String) (h : mget st.socks p = none) :
    step st (Ev.disconnect p) = (st, []) := by
  simp [step, h]

theorem step_disconnect_noroom (st : Relay) (p cur : String)
    (h : mget st.socks p = some cur) (h2 : mget st.rooms cur = none) :
    step st (Ev.disconnect p) = ({ rooms := st.rooms, socks := mdel st.socks p }, []) := by
  simp [step, h, h2]

theorem step_disconnect_empty (st : Relay) (p cur : String) (roomPeers : List String)
    (h : mget st.socks p = some cur) (h2 : mget st.rooms cur = some roomPeers)
    (h3 : (sdel roomPeers p).length = 0) :
    step st (Ev.disconnect p)
      = ({ rooms := mdel st.rooms cur, socks := mdel st.socks p }, []) := by
  simp only [step, h, h2]
  rw [if_pos h3]

theorem step_disconnect_rest (st : Relay) (p cur : String) (roomPeers : List String)
    (h : mget st.socks p = some cur) (h2 : mget st.rooms cur = some roomPeers)
    (h3 : ¬ (sdel roomPeers p).length = 0) :
    step st (Ev.disconnect p)
      = ({ rooms := mset st.rooms cur (sdel roomPeers p), socks := mdel st.socks p },
         (ioTo { rooms := mset st.rooms cur (sdel roomPeers p),
                 socks := mdel st.socks p } cur).map
           (fun m => Emit.roster m (sdel roomPeers p))) := by
  simp only [step, h, h2]
  rw [if_neg h3]

/-! ### `leaveRoom` / `ensureRoom` / `joinRoomStep` analysis -/

theorem leaveRoom_eq_none (rooms : List (String × List String)) (p cur : String)
    (h : mget rooms cur = none) : leaveRoom rooms p cur = rooms := by
  simp [leaveRoom, h]

theorem leaveRoom_eq_del (rooms : List (String × List String)) (p cur : String)
    (roomPeers : List String) (h : mget rooms cur = some roomPeers)
    (h2 : (sdel roomPeers p).length = 0) : leaveRoom rooms p cur = mdel rooms cur := by
  simp only [leaveRoom, h]
  rw [if_pos h2]

theorem leaveRoom_eq_set (rooms : List (String × List String)) (p cur : String)
    (roomPeers : List String) (h : mget rooms cur = some roomPeers)
    (h2 : ¬ (sdel roomPeers p).length = 0) :
    leaveRoom rooms p cur = mset rooms cur (sdel roomPeers p) := by
  simp only [leaveRoom, h]
  rw [if_neg h2]

theorem ensureRoom_self (rooms : List (String × List String)) (room : String) :
    mget (ensureRoom rooms room) room = some ((mget rooms room).getD []) := by
  cases h : mget rooms room with
  | none =>
    have hh : mhas rooms room = false := by simp [mhas, h]
    simp [ensureRoom, hh, mget_mset_self]
  | some ps =>
    have hh : mhas rooms room = true := by simp [mhas, h]
    simp [ensureRoom, hh, h]

theorem ensureRoom_ne (rooms : List (String × List String)) (room r : String)
    (h : r ≠ room) : mget (ensureRoom rooms room) r = mget rooms r := by
  unfold ensureRoom
  by_cases hh : mhas rooms room
  · simp [hh]
  · simp [hh, mget_mset_ne _ _ h]

theorem joinRoomStep_rooms_target (rooms : List (String × List String))
    (p cur room : String) :
    mget (joinRoomStep rooms p cur room).1 room
      = some (sadd ((mget (leaveRoom rooms p cur) room).getD []) p) := by
  show mget (mset (ensureRoom (leaveRoom rooms p cur) room) room
      (sadd ((mget (ensureRoom (leaveRoom rooms p cur) room) room).getD []) p)) room = _
  rw [mget_mset_self, ensureRoom_self]
  simp

theorem joinRoomStep_rooms_other (rooms : List (String × List String))
    (p cur room r : String) (h : r ≠ room) :
    mget (joinRoomStep rooms p cur room).1 r = mget (leaveRoom rooms p cur) r := by
  show mget (mset (ensureRoom (leaveRoom rooms p cur) room) room
      (sadd ((mget (ensureRoom (leaveRoom rooms p cur) room) room).getD []) p)) r = _
  rw [mget_mset_ne _ _ h, ensureRoom_ne _ _ _ h]

theorem joinRoomStep_peers (rooms : List (String × List String)) (p cur room : String) :
    (joinRoomStep rooms p cur room).2
      = sadd ((mget (leaveRoom rooms p cur) room).getD []) p := by
  show (mget (joinRoomStep rooms p cur room).1 room).getD [] = _
  rw [joinRoomStep_rooms_target]
  rfl

theorem leaveRoom_spec_mem (socks : List (String × String))
    (rooms : List (String × List String)) (p cur : String)
    (hA : ∀ r ps, mget rooms r = some ps → ps ≠ [] ∧ ∀ q, q ∈ ps → mget socks q = some r)
    (hpOnly : ∀ r ps, mget rooms r = some ps → p ∈ ps → r = cur) :
    ∀ r ps', mget (leaveRoom rooms p cur) r = some ps' →
      ps' ≠ [] ∧ ∀ q, q ∈ ps' → mget socks q = some r ∧ q ≠ p := by
  intro r ps'
  cases hcur : mget rooms cur with
  | none =>
    rw [leaveRoom_eq_none _ _ _ hcur]
    intro hps'
    obtain ⟨hne, hmem⟩ := hA r ps' hps'
    refine ⟨hne, fun q hq => ⟨hmem q hq, ?_⟩⟩
    rintro rfl
    have hr : r = cur := hpOnly r ps' hps' hq
    rw [hr, hcur] at hps'
    cases hps'
  | some roomPeers =>
    by_cases hlen : (sdel roomPeers p).length = 0
    · rw [leaveRoom_eq_del _ _ _ _ hcur hlen]
      intro hps'
      have hr : r ≠ cur := by
        rintro rfl
        rw [mget_mdel_self] at hps'
        cases hps'
      rw [mget_mdel_ne _ hr] at hps'
      obtain ⟨hne, hmem⟩ := hA r ps' hps'
      refine ⟨hne, fun q hq => ⟨hmem q hq, ?_⟩⟩
      rintro rfl
      exact hr (hpOnly r ps' hps' hq)
    · rw [leaveRoom_eq_set _ _ _ _ hcur hlen]
      intro hps'
      by_cases hr : r = cur
      · subst hr
        rw [mget_mset_self] at hps'
        obtain rfl : sdel roomPeers p = ps' := Option.some.inj hps'
        refine ⟨fun h0 => hlen (by rw [h0]; rfl), fun q hq => ?_⟩
        obtain ⟨hq1, hq2⟩ := mem_sdel.mp hq
        exact ⟨(hA r roomPeers hcur).2 q hq1, hq2⟩
      · rw [mget_mset_ne _ _ hr] at hps'
        obtain ⟨hne, hmem⟩ := hA r ps' hps'
        refine ⟨hne, fun q hq => ⟨hmem q hq, ?_⟩⟩
        rintro rfl
        exact hr (hpOnly r ps' hps' hq)

theorem leaveRoom_keeps {rooms : List (String × List String)} {p cur q r : String}
    {ps : List String} (hq : q ≠ p) (hps : mget rooms r = some ps) (hmem : q ∈ ps) :
    ∃ ps', mget (leaveRoom rooms p cur) r = some ps' ∧ q ∈ ps' := by
  cases hcur : mget rooms cur with
  | none =>
    rw [leaveRoom_eq_none _ _ _ hcur]
    exact ⟨ps, hps, hmem⟩
  | some roomPeers =>
    by_cases hr : r = cur
    · subst hr
      obtain rfl : roomPeers = ps := Option.some.inj (hcur.symm.trans hps)
      have hq2 : q ∈ sdel roomPeers p := mem_sdel.mpr ⟨hmem, hq⟩
      have hlen : ¬ (sdel roomPeers p).length = 0 := by
        intro h0
        rw [List.length_eq_zero] at h0
        rw [h0] at hq2
        cases hq2
      rw [leaveRoom_eq_set _ _ _ _ hcur hlen]
      exact ⟨sdel roomPeers p, mget_mset_self _ _ _, hq2⟩
    · by_cases hlen : (sdel roomPeers p).length = 0
      · rw [leaveRoom_eq_del _ _ _ _ hcur hlen]
        exact ⟨ps, (mget_mdel_ne _ hr).trans hps, hmem⟩
      · rw [leaveRoom_eq_set _ _ _ _ hcur hlen]
        exact ⟨ps, (mget_mset_ne _ _ hr).trans hps, hmem⟩

/-! ### Invariant preservation -/

theorem Inv_applyJoinRoom (st : Relay) (p cur room : String) (hInv : Inv st)
    (hp : mget st.socks p = some cur ∨ mget st.socks p = none) :
    Inv (applyJoinRoom st p cur room).1 := by
  obtain ⟨hnd, hA, hB⟩ := hInv
  have hpOnly : ∀ r ps, mget st.rooms r = some ps → p ∈ ps → r = cur := by
    intro r ps hps hmem
    have hs := (hA r ps hps).2 p hmem
    rcases hp with h | h
    · rw [h] at hs
      exact (Option.some.inj hs).symm
    · rw [h] at hs
      cases hs
  have hrooms : (applyJoinRoom st p cur room).1.rooms
      = (joinRoomStep st.rooms p cur room).1 := rfl
  have hsocks : (applyJoinRoom st p cur room).1.socks = mset st.socks p room := rfl
  refine ⟨?_, ?_, ?_⟩
  · show (keys (applyJoinRoom st p cur room).1.socks).Nodup
    rw [hsocks]
    exact nodup_keys_mset _ _ _ hnd
  · intro r ps' hps'
    rw [hrooms] at hps'
    by_cases hr : r = room
    · subst hr
      rw [joinRoomStep_rooms_target] at hps'
      obtain rfl : sadd ((mget (leaveRoom st.rooms p cur) r).getD []) p = ps' :=
        Option.some.inj hps'
      constructor
      · intro h0
        have hmm : p ∈ sadd ((mget (leaveRoom st.rooms p cur) r).getD []) p :=
          mem_sadd.mpr (Or.inr rfl)
        rw [h0] at hmm
        cases hmm
      · intro q hq
        rw [hsocks]
        rcases mem_sadd.mp hq with hq2 | hq2
        · cases hL : mget (leaveRoom st.rooms p cur) r with
          | none =>
            rw [hL] at hq2
            simp at hq2
          | some psL =>
            rw [hL] at hq2
            obtain ⟨hqs, hqp⟩ :=
              (leaveRoom_spec_mem st.socks st.rooms p cur hA hpOnly r psL hL).2 q hq2
            rw [mget_mset_ne _ _ hqp]
            exact hqs
        · subst hq2
          exact mget_mset_self _ _ _
    · rw [joinRoomStep_rooms_other _ _ _ _ _ hr] at hps'
      obtain ⟨hne, hmem⟩ := leaveRoom_spec_mem st.socks st.rooms p cur hA hpOnly r ps' hps'
      refine ⟨hne, fun q hq => ?_⟩
      obtain ⟨hqs, hqp⟩ := hmem q hq
      rw [hsocks, mget_mset_ne _ _ hqp]
      exact hqs
  · intro q r hq
    rw [hsocks] at hq
    by_cases hqp : q = p
    · subst hqp
      rw [mget_mset_self] at hq
      obtain rfl : room = r := Option.some.inj hq
      rw [hrooms]
      refine ⟨_, joinRoomStep_rooms_target _ _ _ _, ?_⟩
      exact mem_sadd.mpr (Or.inr rfl)
    · rw [mget_mset_ne _ _ hqp] at hq
      obtain ⟨ps, hps, hmem⟩ := hB q r hq
      obtain ⟨psL, hL, hqL⟩ := leaveRoom_keeps hqp hps hmem
      rw [hrooms]
      by_cases hr : r = room
      · subst hr
        refine ⟨_, joinRoomStep_rooms_target _ _ _ _, ?_⟩
        rw [hL]
        exact mem_sadd.mpr (Or.inl hqL)
      · refine ⟨psL, ?_, hqL⟩
        rw [joinRoomStep_rooms_other _ _ _ _ _ hr]
        exact hL

theorem Inv_step (st : Relay) (ev : Ev) (h : Inv st) : Inv (step st ev).1 := by
  cases ev with
  | connect p =>
    cases hp : mhas st.socks p
    · rw [step_connect_fresh st p hp]
      refine Inv_applyJoinRoom st p "global" "global" h (Or.inr ?_)
      cases hg : mget st.socks p with
      | none => rfl
      | some c =>
        rw [show mhas st.socks p = true by simp [mhas, hg]] at hp
        cases hp
    · rw [step_connect_dup st p hp]
      exact h
  | join p room =>
    cases hg : mget st.socks p with
    | none =>
      rw [step_join_none st p room hg]
      exact h
    | some cur =>
      rw [step_join_some st p room cur hg]
      exact Inv_applyJoinRoom st p cur _ h (Or.inl hg)
  | disconnect p =>
    obtain ⟨hnd, hA, hB⟩ := h
    cases hg : mget st.socks p with
    | none =>
      rw [step_disconnect_none st p hg]
      exact ⟨hnd, hA, hB⟩
    | some cur =>
      cases hroom : mget st.rooms cur with
      | none =>
        rw [step_disconnect_noroom st p cur hg hroom]
        refine ⟨nodup_keys_mdel _ _ hnd, ?_, ?_⟩
        · intro r ps hps
          obtain ⟨hne, hmem⟩ := hA r ps hps
          refine ⟨hne, fun q hq => ?_⟩
          have hs := hmem q hq
          have hqp : q ≠ p := by
            rintro rfl
            rw [hg] at hs
            obtain rfl : cur = r := Option.some.inj hs
            rw [hroom] at hps
            cases hps
          rw [mget_mdel_ne _ hqp]
          exact hs
        · intro q r hq
          have hqp : q ≠ p := by
            rintro rfl
            rw [mget_mdel_self] at hq
            cases hq
          rw [mget_mdel_ne _ hqp] at hq
          exact hB q r hq
      | some roomPeers =>
        by_cases hlen : (sdel roomPeers p).length = 0
        · rw [step_disconnect_empty st p cur roomPeers hg hroom hlen]
          have hempty : sdel roomPeers p = [] := List.length_eq_zero.mp hlen
          refine ⟨nodup_keys_mdel _ _ hnd, ?_, ?_⟩
          · intro r ps hps
            have hr : r ≠ cur := by
              rintro rfl
              rw [mget_mdel_self] at hps
              cases hps
            rw [mget_mdel_ne _ hr] at hps
            obtain ⟨hne, hmem⟩ := hA r ps hps
            refine ⟨hne, fun q hq => ?_⟩
            have hs := hmem q hq
            have hqp : q ≠ p := by
              rintro rfl
              rw [hg] at hs
              exact hr (Option.some.inj hs).symm
            rw [mget_mdel_ne _ hqp]
            exact hs
          · intro q r hq
            have hqp : q ≠ p := by
              rintro rfl
              rw [mget_mdel_self] at hq
              cases hq
            rw [mget_mdel_ne _ hqp] at hq
            obtain ⟨ps, hps, hmem⟩ := hB q r hq
            have hr : r ≠ cur := by
              rintro rfl
              obtain rfl : roomPeers = ps := Option.some.inj (hroom.symm.trans hps)
              have hin : q ∈ sdel roomPeers p := mem_sdel.mpr ⟨hmem, hqp⟩
              rw [hempty] at hin
              cases hin
            refine ⟨ps, ?_, hmem⟩
            rw [mget_mdel_ne _ hr]
            exact hps
        · rw [step_disconnect_rest st p cur roomPeers hg hroom hlen]
          refine ⟨nodup_keys_mdel _ _ hnd, ?_, ?_⟩
          · intro r ps hps
            by_cases hr : r = cur
            · subst hr
              rw [mget_mset_self] at hps
              obtain rfl : sdel roomPeers p = ps := Option.some.inj hps
              refine ⟨fun h0 => hlen (by rw [h0]; rfl), fun q hq => ?_⟩
              obtain ⟨hq1, hq2⟩ := mem_sdel.mp hq
              rw [mget_mdel_ne _ hq2]
              exact (hA r roomPeers hroom).2 q hq1
            · rw [mget_mset_ne _ _ hr] at hps
              obtain ⟨hne, hmem⟩ := hA r ps hps
              refine ⟨hne, fun q hq => ?_⟩
              have hs := hmem q hq
              have hqp : q ≠ p := by
                rintro rfl
                rw [hg] at hs
                exact hr (Option.some.inj hs).symm
              rw [mget_mdel_ne _ hqp]
              exact hs
          · intro q r hq
            have hqp : q ≠ p := by
              rintro rfl
              rw [mget_mdel_self] at hq
              cases hq
            rw [mget_mdel_ne _ hqp] at hq
            obtain ⟨ps, hps, hmem⟩ := hB q r hq
            by_cases hr : r = cur
            · subst hr
              obtain rfl : roomPeers = ps := Option.some.inj (hroom.symm.trans hps)
              refine ⟨sdel roomPeers p, mget_mset_self _ _ _, ?_⟩
              exact mem_sdel.mpr ⟨hmem, hqp⟩
            · refine ⟨ps, ?_, hmem⟩
              rw [mget_mset_ne _ _ hr]
              exact hps

theorem Inv_initRelay : Inv initRelay := by
  refine ⟨by simp [sockIds, initRelay, keys], ?_, ?_⟩
  · intro r ps hps
    simp [initRelay, mget] at hps
  · intro p r hp
    simp [initRelay, mget] at hp

theorem Inv_run (evs : List Ev) : Inv (run evs) := by
  suffices hsuf : ∀ st, Inv st → Inv (evs.foldl (fun st e => (step st e).1) st) by
    exact hsuf initRelay Inv_initRelay
  induction evs with
  | nil =>
    intro st h
    exact h
  | cons e evs ih =>
    intro st h
    exact ih _ (Inv_step st e h)

/-! ### Emission and delivery-set lemmas -/

theorem mem_ioTo {st : Relay} {name q : String} :
    q ∈ ioTo st name ↔ q ∈ sockIds st ∧ (q = name ∨ mget st.socks q = some name) := by
  unfold ioTo
  rw [List.mem_filter]
  simp

theorem applyJoinRoom_socks (st : Relay) (p cur room : String) :
    (applyJoinRoom st p cur room).1.socks = mset st.socks p room := rfl

theorem applyJoinRoom_rooms (st : Relay) (p cur room : String) :
    (applyJoinRoom st p cur room).1.rooms = (joinRoomStep st.rooms p cur room).1 := rfl

theorem applyJoinRoom_emits (st : Relay) (p cur room : String) :
    (applyJoinRoom st p cur room).2
      = (ioTo (applyJoinRoom st p cur room).1 room).map
          (fun m => Emit.roster m (joinRoomStep st.rooms p cur room).2) := rfl

theorem filter_eq_singleton_of_nodup {l : List String} {t : String} {p : String → Bool}
    (hnd : l.Nodup) (ht : t ∈ l) (hp : ∀ s, p s = true ↔ s = t) :
    l.filter p = [t] := by
  induction l with
  | nil => cases ht
  | cons a l ih =>
    obtain ⟨hal, hl⟩ := List.nodup_cons.mp hnd
    rcases List.mem_cons.mp ht with h2 | h2
    · subst h2
      rw [List.filter_cons, if_pos ((hp t).mpr rfl)]
      have hnil : l.filter p = [] := by
        rw [List.filter_eq_nil_iff]
        intro s hs hps
        rw [(hp s).mp hps] at hs
        exact hal hs
      rw [hnil]
    · have hat : ¬ (a = t) := by
        rintro rfl
        exact hal h2
      have hpa : ¬ (p a = true) := fun hc => hat ((hp a).mp hc)
      rw [List.filter_cons, if_neg hpa]
      exact ih hl h2

/-! ### Claim C7: room partition invariant -/

/-- C7: in every relay state reachable by any sequence of connect, join and
    disconnect events, a peer id belongs to the member set of at most one
    room, and every room present in the relay's map has a non-empty member
    set. -/
theorem rooms_partition_peers (evs : List Ev) :
    (∀ p r1 r2 ps1 ps2, mget (run evs).rooms r1 = some ps1 →
      mget (run evs).rooms r2 = some ps2 → p ∈ ps1 → p ∈ ps2 → r1 = r2) ∧
    (∀ r ps, mget (run evs).rooms r = some ps → ps ≠ []) := by
  obtain ⟨hnd, hA, hB⟩ := Inv_run evs
  constructor
  · intro p r1 r2 ps1 ps2 h1 h2 hm1 hm2
    have e1 := (hA r1 ps1 h1).2 p hm1
    have e2 := (hA r2 ps2 h2).2 p hm2
    exact Option.some.inj (e1.symm.trans e2)
  · intro r ps h
    exact (hA r ps h).1

/-- Concrete instance of `rooms_partition_peers` after two connections. -/
theorem rooms_partition_witness :
    ("global" : String) = "global" ∧ (["a", "b"] : List String) ≠ [] := by
  have h := rooms_partition_peers [Ev.connect "a", Ev.connect "b"]
  refine ⟨h.1 "a" "global" "global" ["a", "b"] ["a", "b"] rfl rfl (by decide) (by decide),
    h.2 "global" ["a", "b"] rfl⟩

/-! ### Claim C10: the "global" default room -/

/-- C10: the connection handler immediately joins a fresh peer to "global"
    (before any `join` from that client can be processed) and that peer is
    among the recipients of the roster broadcast; in every reachable state a
    connected peer is a member of exactly one room; and a `join` whose room
    field is missing or empty targets "global". -/
theorem connection_defaults_to_global :
    (∀ st p, mhas st.socks p = false →
      mget (step st (Ev.connect p)).1.socks p = some "global" ∧
      ∃ ps, mget (step st (Ev.connect p)).1.rooms "global" = some ps ∧ p ∈ ps ∧
        Emit.roster p ps ∈ (step st (Ev.connect p)).2) ∧
    (∀ evs p r, mget (run evs).socks p = some r →
      ∃ ps, mget (run evs).rooms r = some ps ∧ p ∈ ps ∧
        ∀ r' ps', mget (run evs).rooms r' = some ps' → p ∈ ps' → r' = r) ∧
    (∀ st p, step st (Ev.join p none) = step st (Ev.join p (some "global")) ∧
      step st (Ev.join p (some "")) = step st (Ev.join p (some "global"))) := by
  refine ⟨?_, ?_, ?_⟩
  · intro st p hp
    rw [step_connect_fresh st p hp]
    have hso : mget (applyJoinRoom st p "global" "global").1.socks p = some "global" := by
      rw [applyJoinRoom_socks]
      exact mget_mset_self _ _ _
    refine ⟨hso, sadd ((mget (leaveRoom st.rooms p "global") "global").getD []) p,
      ?_, ?_, ?_⟩
    · rw [applyJoinRoom_rooms]
      exact joinRoomStep_rooms_target _ _ _ _
    · exact mem_sadd.mpr (Or.inr rfl)
    · rw [applyJoinRoom_emits, List.mem_map]
      refine ⟨p, ?_, ?_⟩
      · rw [mem_ioTo]
        exact ⟨mem_keys_of_mget hso, Or.inr hso⟩
      · rw [joinRoomStep_peers]
  · intro evs p r hp
    obtain ⟨hnd, hA, hB⟩ := Inv_run evs
    obtain ⟨ps, hps, hmem⟩ := hB p r hp
    refine ⟨ps, hps, hmem, fun r' ps' hps' hmem' => ?_⟩
    have e1 := (hA r' ps' hps').2 p hmem'
    rw [hp] at e1
    exact (Option.some.inj e1).symm
  · intro st p
    constructor
    · cases hg : mget st.socks p with
      | none => rw [step_join_none st p none hg, step_join_none st p (some "global") hg]
      | some cur =>
        rw [step_join_some st p none cur hg, step_join_some st p (some "global") cur hg]
        simp
    · cases hg : mget st.socks p with
      | none => rw [step_join_none st p (some "") hg, step_join_none st p (some "global") hg]
      | some cur =>
        rw [step_join_some st p (some "") cur hg, step_join_some st p (some "global") cur hg]
        simp

/-- Concrete instance of `connection_defaults_to_global`. -/
theorem connection_defaults_witness :
    mget (step initRelay (Ev.connect "a")).1.socks "a" = some "global" ∧
    step initRelay (Ev.join "a" none) = step initRelay (Ev.join "a" (some "global")) := by
  have h := connection_defaults_to_global
  exact ⟨(h.1 initRelay "a" (by decide)).1, (h.2.2 initRelay "a").1⟩

/-! ### Claim C5: join semantics -/

/-- C5: processing `join(p, r)` (non-empty explicit room name r) for a
    connected peer whose current room is `cur` removes p from `cur`'s member
    set — deleting `cur` from the map if its set became empty — inserts p into
    room r's member set (creating the entry if it did not exist, witnessed by
    the lookup now returning a list containing p), and pushes the updated
    member list of r to every member of r. -/
theorem join_moves_peer_and_broadcasts (st : Relay) (p cur r : String)
    (hInv : Inv st) (hp : mget st.socks p = some cur) (hr : r ≠ "") :
    ∃ ps, mget (step st (Ev.join p (some r))).1.rooms r = some ps ∧ p ∈ ps ∧
      (∀ q, q ∈ ps → Emit.roster q ps ∈ (step st (Ev.join p (some r))).2) ∧
      (∀ ps0, cur ≠ r → mget st.rooms cur = some ps0 →
        ((sdel ps0 p).length = 0 →
          mget (step st (Ev.join p (some r))).1.rooms cur = none) ∧
        (¬ (sdel ps0 p).length = 0 →
          mget (step st (Ev.join p (some r))).1.rooms cur = some (sdel ps0 p))) := by
  have hstep : step st (Ev.join p (some r)) = applyJoinRoom st p cur r := by
    rw [step_join_some st p (some r) cur hp]
    show applyJoinRoom st p cur (if r = "" then "global" else r) = applyJoinRoom st p cur r
    rw [if_neg hr]
  obtain ⟨hnd, hA, hB⟩ := hInv
  have hpOnly : ∀ r0 ps, mget st.rooms r0 = some ps → p ∈ ps → r0 = cur := by
    intro r0 ps hps hmem
    have hsp := (hA r0 ps hps).2 p hmem
    rw [hp] at hsp
    exact (Option.some.inj hsp).symm
  refine ⟨sadd ((mget (leaveRoom st.rooms p cur) r).getD []) p, ?_, ?_, ?_, ?_⟩
  · rw [hstep, applyJoinRoom_rooms]
    exact joinRoomStep_rooms_target _ _ _ _
  · exact mem_sadd.mpr (Or.inr rfl)
  · intro q hq
    rw [hstep, applyJoinRoom_emits, List.mem_map]
    refine ⟨q, ?_, ?_⟩
    · rw [mem_ioTo]
      rcases mem_sadd.mp hq with hq2 | hq2
      · cases hL : mget (leaveRoom st.rooms p cur) r with
        | none =>
          rw [hL] at hq2
          simp at hq2
        | some psL =>
          rw [hL] at hq2
          obtain ⟨hqs, hqp⟩ :=
            (leaveRoom_spec_mem st.socks st.rooms p cur hA hpOnly r psL hL).2 q hq2
          have hs' : mget (applyJoinRoom st p cur r).1.socks q = some r := by
            rw [applyJoinRoom_socks, mget_mset_ne _ _ hqp]
            exact hqs
          exact ⟨mem_keys_of_mget hs', Or.inr hs'⟩
      · have hs' : mget (applyJoinRoom st p cur r).1.socks q = some r := by
          rw [applyJoinRoom_socks, hq2]
          exact mget_mset_self _ _ _
        exact ⟨mem_keys_of_mget hs', Or.inr hs'⟩
    · rw [joinRoomStep_peers]
  · intro ps0 hcr hps0
    constructor
    · intro hlen
      rw [hstep, applyJoinRoom_rooms, joinRoomStep_rooms_other _ _ _ _ _ hcr]
      rw [leaveRoom_eq_del _ _ _ _ hps0 hlen]
      exact mget_mdel_self _ _
    · intro hlen
      rw [hstep, applyJoinRoom_rooms, joinRoomStep_rooms_other _ _ _ _ _ hcr]
      rw [leaveRoom_eq_set _ _ _ _ hps0 hlen]
      exact mget_mset_self _ _ _

/-- Concrete instance of `join_moves_peer_and_broadcasts`: "b" moving from
    "global" to "r". -/
theorem join_moves_witness :
    ∃ ps, mget (step (run [Ev.connect "a", Ev.connect "b"])
        (Ev.join "b" (some "r"))).1.rooms "r" = some ps ∧ "b" ∈ ps := by
  obtain ⟨ps, h1, h2, _⟩ := join_moves_peer_and_broadcasts
    (run [Ev.connect "a", Ev.connect "b"]) "b" "global" "r"
    (Inv_run _) rfl (by decide)
  exact ⟨ps, h1, h2⟩

/-! ### Claim C6: disconnect semantics -/

/-- C6: a disconnect of a peer p currently in room `cur` whose member set is
    `roomPeers` removes p from that set; if the set became empty the room is
    deleted from the map and nothing is emitted; otherwise the updated member
    list is pushed to every remaining member. -/
theorem disconnect_updates_room (st : Relay) (p cur : String) (roomPeers : List String)
    (hInv : Inv st) (hp : mget st.socks p = some cur)
    (hroom : mget st.rooms cur = some roomPeers) :
    ((sdel roomPeers p).length = 0 →
      mget (step st (Ev.disconnect p)).1.rooms cur = none ∧
      (step st (Ev.disconnect p)).2 = []) ∧
    (¬ (sdel roomPeers p).length = 0 →
      mget (step st (Ev.disconnect p)).1.rooms cur = some (sdel roomPeers p) ∧
      p ∉ sdel roomPeers p ∧
      ∀ q, q ∈ sdel roomPeers p →
        Emit.roster q (sdel roomPeers p) ∈ (step st (Ev.disconnect p)).2) := by
  obtain ⟨hnd, hA, hB⟩ := hInv
  constructor
  · intro hlen
    rw [step_disconnect_empty st p cur roomPeers hp hroom hlen]
    exact ⟨mget_mdel_self _ _, rfl⟩
  · intro hlen
    rw [step_disconnect_rest st p cur roomPeers hp hroom hlen]
    refine ⟨mget_mset_self _ _ _, ?_, ?_⟩
    · intro hc
      exact (mem_sdel.mp hc).2 rfl
    · intro q hq
      refine List.mem_map.mpr ⟨q, ?_, rfl⟩
      rw [mem_ioTo]
      obtain ⟨hq1, hq2⟩ := mem_sdel.mp hq
      have hqs := (hA cur roomPeers hroom).2 q hq1
      have hs' : mget (mdel st.socks p) q = some cur := by
        rw [mget_mdel_ne _ hq2]
        exact hqs
      exact ⟨mem_keys_of_mget hs', Or.inr hs'⟩

/-- Concrete instance of `disconnect_updates_room`: "b" leaving a two-peer
    "global" room pushes roster ["a"] to "a". -/
theorem disconnect_witness :
    mget (step (run [Ev.connect "a", Ev.connect "b"])
        (Ev.disconnect "b")).1.rooms "global" = some ["a"] ∧
    Emit.roster "a" ["a"]
      ∈ (step (run [Ev.connect "a", Ev.connect "b"]) (Ev.disconnect "b")).2 := by
  have h := disconnect_updates_room (run [Ev.connect "a", Ev.connect "b"])
    "b" "global" ["a", "b"] (Inv_run _) rfl rfl
  have h2 := h.2 (by decide)
  have hsd : sdel ["a", "b"] "b" = ["a"] := by decide
  refine ⟨?_, ?_⟩
  · have h3 := h2.1
    rw [hsd] at h3
    exact h3
  · have h3 := h2.2.2 "a" (by rw [hsd]; exact List.mem_singleton.mpr rfl)
    rw [hsd] at h3
    exact h3

/-! ### Claim C3: roster contents -/

/-- C3 as stated is false: the very first roster push already contains the
    recipient's own id — connecting "a" to the empty relay delivers the
    roster ["a"] to "a" itself. -/
theorem roster_includes_recipient_counterexample :
    (step initRelay (Ev.connect "a")).2 = [Emit.roster "a" ["a"]] ∧
    "a" ∈ ["a"] :=
  ⟨rfl, by decide⟩

theorem applyJoinRoom_roster_mem (st : Relay) (p cur room m : String) (ps : List String)
    (h : Emit.roster m ps ∈ (applyJoinRoom st p cur room).2) :
    ∃ room', mget (applyJoinRoom st p cur room).1.rooms room' = some ps ∧
      m ∈ ioTo (applyJoinRoom st p cur room).1 room' := by
  rw [applyJoinRoom_emits] at h
  obtain ⟨m', hm', heq⟩ := List.mem_map.mp h
  injection heq with h1 h2
  subst h1
  subst h2
  refine ⟨room, ?_, hm'⟩
  rw [applyJoinRoom_rooms, joinRoomStep_rooms_target, joinRoomStep_peers]

/-- C3 amended: every roster event the relay emits carries the full
    post-event member list of the room it concerns — including the recipient
    whenever the recipient is a member — and its recipients are the sockets
    of that signaling room; the recipient's own id is excluded only
    client-side, where the `roster` handler hands `onRoster` the received
    list with the own id filtered out. -/
theorem roster_payload_amended :
    (∀ st ev m ps, Emit.roster m ps ∈ (step st ev).2 →
      ∃ room, mget (step st ev).1.rooms room = some ps ∧
        m ∈ ioTo (step st ev).1 room) ∧
    (∀ selfId peers, selfId ∉ rosterCallbackArg selfId peers) := by
  constructor
  · intro st ev m ps hm
    cases ev with
    | connect p =>
      cases hp : mhas st.socks p
      · rw [step_connect_fresh st p hp] at hm ⊢
        exact applyJoinRoom_roster_mem st p "global" "global" m ps hm
      · rw [step_connect_dup st p hp] at hm
        cases hm
    | join p room =>
      cases hg : mget st.socks p with
      | none =>
        rw [step_join_none st p room hg] at hm
        cases hm
      | some cur =>
        rw [step_join_some st p room cur hg] at hm ⊢
        exact applyJoinRoom_roster_mem st p cur _ m ps hm
    | disconnect p =>
      cases hg : mget st.socks p with
      | none =>
        rw [step_disconnect_none st p hg] at hm
        cases hm
      | some cur =>
        cases hroom : mget st.rooms cur with
        | none =>
          rw [step_disconnect_noroom st p cur hg hroom] at hm
          cases hm
        | some roomPeers =>
          by_cases hlen : (sdel roomPeers p).length = 0
          · rw [step_disconnect_empty st p cur roomPeers hg hroom hlen] at hm
            cases hm
          · rw [step_disconnect_rest st p cur roomPeers hg hroom hlen] at hm ⊢
            obtain ⟨m', hm', heq⟩ := List.mem_map.mp hm
            injection heq with h1 h2
            subst h1
            subst h2
            exact ⟨cur, mget_mset_self _ _ _, hm'⟩
  · intro selfId peers hc
    obtain ⟨h1, h2⟩ := List.mem_filter.mp hc
    simp at h2

/-- Concrete instance of `roster_payload_amended`. -/
theorem roster_payload_amended_witness :
    (∃ room, mget (step initRelay (Ev.connect "a")).1.rooms room = some ["a"] ∧
      "a" ∈ ioTo (step initRelay (Ev.connect "a")).1 room) ∧
    "me" ∉ rosterCallbackArg "me" ["me", "b"] := by
  have h := roster_payload_amended
  exact ⟨h.1 initRelay (Ev.connect "a") "a" ["a"] (by decide),
    h.2 "me" ["me", "b"]⟩

/-! ### Claim C2: job relaying -/

/-- C2 as stated is false at a concrete reachable state: with peers "a" and
    "b" in a room named "t" and a third connected peer whose socket id is "t"
    (itself in "global"), a job from "a" carrying messageId "m1" is forwarded
    to socket "t" — which is not a member of room "t" — and the delivered
    payload carries no messageId at all. -/
theorem job_forward_counterexample :
    relayJobHandler
        (run [Ev.connect "t", Ev.connect "a", Ev.connect "b",
              Ev.join "a" (some "t"), Ev.join "b" (some "t")])
        "a" ⟨"j1", "hi", "p", none, some "m1"⟩
      = [("t", ⟨"j1", "hi", "p", some "a", none⟩),
         ("b", ⟨"j1", "hi", "p", some "a", none⟩)] ∧
    mget (run [Ev.connect "t", Ev.connect "a", Ev.connect "b",
               Ev.join "a" (some "t"), Ev.join "b" (some "t")]).rooms "t"
      = some ["a", "b"] ∧
    ("t" : String) ∉ ["a", "b"] ∧
    (some "m1" : Option String) ≠ (none : Option String) :=
  ⟨rfl, rfl, by decide, by decide⟩

/-- C2 amended: a job submitted by a connected sender is forwarded as
    `{id, from: sender, prompt, params}` — the submitted job's messageId is
    dropped (delivered as absent) — to exactly the sockets of the sender's
    signaling room other than the sender itself: under the relay invariant
    these are the members of the sender's current room minus the sender,
    together with the peer whose socket id equals the room's name when such a
    peer exists. -/
theorem job_forward_amended (st : Relay) (sender cur : String) (j : MeshJob)
    (hInv : Inv st) (hs : mget st.socks sender = some cur) :
    ∀ q out, (q, out) ∈ relayJobHandler st sender j ↔
      (out = { id := j.id, prompt := j.prompt, params := j.params,
               fromPeer := some sender, messageId := none } ∧
       q ≠ sender ∧
       ((∃ ps, mget st.rooms cur = some ps ∧ q ∈ ps) ∨
        (q = cur ∧ mhas st.socks q = true))) := by
  obtain ⟨hnd, hA, hB⟩ := hInv
  intro q out
  have hun : relayJobHandler st sender j
      = ((ioTo st cur).filter (fun s => decide (s ≠ sender))).map
          (fun m => (m, ({ id := j.id, prompt := j.prompt, params := j.params,
                           fromPeer := some sender,
                           messageId := none } : MeshJob))) := by
    simp only [relayJobHandler, hs]
  rw [hun]
  constructor
  · intro h
    obtain ⟨m, hm, heq⟩ := List.mem_map.mp h
    have hq : m = q := congrArg Prod.fst heq
    have hout : _ = out := congrArg Prod.snd heq
    subst hq
    obtain ⟨hio, hne⟩ := List.mem_filter.mp hm
    refine ⟨hout.symm, of_decide_eq_true hne, ?_⟩
    obtain ⟨hsock, hdis⟩ := mem_ioTo.mp hio
    rcases hdis with h2 | h2
    · exact Or.inr ⟨h2, mhas_of_mem_keys hsock⟩
    · obtain ⟨ps, hps, hmem⟩ := hB _ cur h2
      exact Or.inl ⟨ps, hps, hmem⟩
  · rintro ⟨hout, hne, hloc⟩
    subst hout
    refine List.mem_map.mpr ⟨q, ?_, rfl⟩
    refine List.mem_filter.mpr ⟨?_, decide_eq_true hne⟩
    rw [mem_ioTo]
    rcases hloc with ⟨ps, hps, hmem⟩ | ⟨hqc, hhas⟩
    · have hsq := (hA cur ps hps).2 q hmem
      exact ⟨mem_keys_of_mget hsq, Or.inr hsq⟩
    · exact ⟨mhas_iff_mem_keys.mp hhas, Or.inl hqc⟩

/-- Concrete instance of `job_forward_amended`: the room-mate "b" receives the
    forwarded job with `from = "a"` and no messageId. -/
theorem job_forward_amended_witness :
    ("b", ({ id := "j1", prompt := "hi", params := "p", fromPeer := some "a",
             messageId := none } : MeshJob))
      ∈ relayJobHandler
          (run [Ev.connect "t", Ev.connect "a", Ev.connect "b",
                Ev.join "a" (some "t"), Ev.join "b" (some "t")])
          "a" ⟨"j1", "hi", "p", none, some "m1"⟩ := by
  have h := job_forward_amended
    (run [Ev.connect "t", Ev.connect "a", Ev.connect "b",
          Ev.join "a" (some "t"), Ev.join "b" (some "t")])
    "a" "t" ⟨"j1", "hi", "p", none, some "m1"⟩ (Inv_run _) rfl
  exact (h "b" _).mpr ⟨rfl, by decide, Or.inl ⟨["a", "b"], rfl, by decide⟩⟩

/-! ### Claim C4: chunk relaying -/

/-- C4 as stated is false at a concrete reachable state: a chunk addressed to
    `to = "t"` is forwarded not only to peer "t" but also to "a" (the sender
    itself) and "b", because their current room is named "t"; and the
    delivered payload carries no messageId. -/
theorem chunk_forward_counterexample :
    relayChunkHandler
        (run [Ev.connect "t", Ev.connect "a", Ev.connect "b",
              Ev.join "a" (some "t"), Ev.join "b" (some "t")])
        "a" "t" ⟨"c1", none, "tok", true, some "m1"⟩
      = [("t", ⟨"c1", some "a", "tok", true, none⟩),
         ("a", ⟨"c1", some "a", "tok", true, none⟩),
         ("b", ⟨"c1", some "a", "tok", true, none⟩)] ∧
    (some "m1" : Option String) ≠ (none : Option String) :=
  ⟨rfl, by decide⟩

/-- C4 amended: a chunk with target field `to = t` is forwarded — tagged
    `from = sender` and carrying the original id, text and done (`!!done` is
    the identity on the boolean), with the messageId dropped — to every socket
    of signaling room `t`: the peer whose socket id is `t` (if connected)
    together with every peer whose current room is named `t`, the sender not
    excluded; in particular, when `t` is a connected peer id and no peer's
    current room is named `t`, the chunk is delivered to exactly peer `t`. -/
theorem chunk_forward_amended (st : Relay) (sender t : String) (c : MeshChunk) :
    (∀ q out, (q, out) ∈ relayChunkHandler st sender t c ↔
      (out = { id := c.id, fromPeer := some sender, text := c.text,
               done := c.done, messageId := none } ∧
       ((q = t ∧ mhas st.socks q = true) ∨ mget st.socks q = some t))) ∧
    ((sockIds st).Nodup → mhas st.socks t = true →
      (∀ s, ¬ mget st.socks s = some t) →
      relayChunkHandler st sender t c
        = [(t, { id := c.id, fromPeer := some sender, text := c.text,
                 done := c.done, messageId := none })]) := by
  constructor
  · intro q out
    constructor
    · intro h
      obtain ⟨m, hm, heq⟩ := List.mem_map.mp h
      have hq : m = q := congrArg Prod.fst heq
      have hout : _ = out := congrArg Prod.snd heq
      subst hq
      obtain ⟨hsock, hdis⟩ := mem_ioTo.mp hm
      refine ⟨hout.symm, ?_⟩
      rcases hdis with h2 | h2
      · exact Or.inl ⟨h2, mhas_of_mem_keys hsock⟩
      · exact Or.inr h2
    · rintro ⟨hout, hloc⟩
      subst hout
      refine List.mem_map.mpr ⟨q, ?_, rfl⟩
      rw [mem_ioTo]
      rcases hloc with ⟨hqt, hhas⟩ | h2
      · exact ⟨mhas_iff_mem_keys.mp hhas, Or.inl hqt⟩
      · exact ⟨mem_keys_of_mget h2, Or.inr h2⟩
  · intro hnd hhas hnone
    have hio : ioTo st t = [t] := by
      unfold ioTo
      refine filter_eq_singleton_of_nodup hnd (mhas_iff_mem_keys.mp hhas) ?_
      intro s
      simp only [decide_eq_true_eq]
      constructor
      · rintro (h | h)
        · exact h
        · exact absurd h (hnone s)
      · intro h
        exact Or.inl h
    show (ioTo st t).map _ = _
    rw [hio]
    rfl

/-- Concrete instance of `chunk_forward_amended`: a state where "t" is a
    connected peer and no room is named "t", so the chunk goes to "t" only. -/
theorem chunk_forward_amended_witness :
    relayChunkHandler (run [Ev.connect "a", Ev.connect "t"]) "a" "t"
        ⟨"c1", none, "tok", false, some "m1"⟩
      = [("t", ⟨"c1", some "a", "tok", false, none⟩)] := by
  have h := chunk_forward_amended (run [Ev.connect "a", Ev.connect "t"]) "a" "t"
    ⟨"c1", none, "tok", false, some "m1"⟩
  refine h.2 (by decide) (by decide) ?_
  intro s hc
  rw [show (run [Ev.connect "a", Ev.connect "t"]).socks
      = [("a", "global"), ("t", "global")] from rfl] at hc
  simp only [mget] at hc
  split_ifs at hc
  all_goals exact absurd (Option.some.inj hc) (by decide)

end MeshAI
